import Mathlib

/-!
Verification development for the ren-table widget (src/ren-table.js).

The file gives a shallow embedding of the parts of the widget that carry
real logic: the dirty-region update scheduler of RenTableElement
(update and the deferred pass), the header-row mutation handler, the
type resolution of body cells, the built-in renderer, exporter and
value-conversion registries, and the bulk data conversion methods
from and to_array.  Theorems about the embedded definitions settle the
frozen claims about the widget.

Conventions: JS numbers that are always naturals in the call sites are
Nat; the possibly infinite bounds of a dirty region
(Number.POSITIVE_INFINITY) are a dedicated two-constructor type NatInf;
JS code that can throw a TypeError is embedded in Except Unit.
-/

/-- Possibly infinite natural: the value of the region bound arguments of
RenTableElement.update, which default to Number.POSITIVE_INFINITY. -/
inductive NatInf where
  | fin (n : Nat)
  | inf
deriving DecidableEq

/-- Comparison a <= n of a possibly infinite value against a natural, false
when the value is infinite (as the JS <= comparison). -/
def NatInf.leNat : NatInf → Nat → Bool
  | .fin a, n => a ≤ n
  | .inf, _ => false

/-- Comparison n < b of a natural against a possibly infinite bound, true
when the bound is infinite (as the JS < comparison). -/
def NatInf.natLt (n : Nat) : NatInf → Bool
  | .fin b => n < b
  | .inf => true

/-- Comparison a <= b between possibly infinite values (as JS <=). -/
def NatInf.le : NatInf → NatInf → Bool
  | .fin a, .fin b => a ≤ b
  | .fin _, .inf => true
  | .inf, .inf => true
  | .inf, .fin _ => false

/-- One pending dirty region, as enqueued by RenTableElement.update
(ren-table.js line 342): half open row and column ranges.  Every call
site passes a natural row_start; column_start can be infinite (the
header-row mutation handler passes it when no element node was mutated),
hence NatInf. -/
structure Region where
  row_start : Nat
  column_start : NatInf
  row_end : NatInf
  column_end : NatInf
deriving DecidableEq

/-- Count of decimal digits of a natural, with explicit fuel so the
recursion is structural and closed values reduce in the kernel. -/
def decDigitsAux : Nat → Nat → Nat
  | 0, _ => 1
  | fuel + 1, n => if n < 10 then 1 else decDigitsAux fuel (n / 10) + 1

/-- Count of decimal digits of a natural. -/
def decDigits (n : Nat) : Nat := decDigitsAux n n

/-- Weight used by RenTableElement.update (line 341) to order the queue:
Number(String(row_start) + String(column_start)), namely the numeric
value of the concatenated decimal digit strings.  The result none models
the NaN produced when column_start is Infinity (the concatenation is not
numeric then). -/
def weightOfParts (rs : Nat) (cs : NatInf) : Option Nat :=
  match cs with
  | .fin c => some (rs * 10 ^ decDigits c + c)
  | .inf => none

/-- Weight of a queued region, see weightOfParts. -/
def Region.weight (r : Region) : Option Nat := weightOfParts r.row_start r.column_start

/-- JS strict greater-than on weights; any comparison against the NaN
weight (none) is false. -/
def weightGt : Option Nat → Option Nat → Bool
  | some a, some b => b < a
  | _, _ => false

/-- Insertion step of RenTableElement.update (lines 344-366): splice the
new entry in front of the first queued region whose weight is strictly
greater, else push it at the end. -/
def insertRegion (e : Region) : List Region → List Region
  | [] => [e]
  | r :: rest =>
    if weightGt r.weight e.weight then e :: r :: rest
    else r :: insertRegion e rest

/-- Scheduler state of a RenTableElement: the pending region queue, the
update_handle flag (null or a pending setTimeout handle), and a count of
the setTimeout calls made so far (for the scheduling claims). -/
structure TableState where
  update_regions : List Region
  update_handle : Bool
  sched_count : Nat
deriving DecidableEq

/-- Scheduler state right after the constructor: empty queue and no
pending deferred pass. -/
def initState : TableState := ⟨[], false, 0⟩

/-- RenTableElement.update (lines 335-371): enqueue a dirty region in
weight order and schedule one deferred pass when none is pending yet
(this.update_handle ??= setTimeout ...). -/
def TableState.update (st : TableState) (rs : Nat) (cs re ce : NatInf) : TableState :=
  { update_regions := insertRegion ⟨rs, cs, re, ce⟩ st.update_regions,
    update_handle := true,
    sched_count := if st.update_handle then st.sched_count else st.sched_count + 1 }

/-- Argument tuple of one call to RenTableElement.update. -/
structure UpdateCall where
  row_start : Nat
  column_start : NatInf
  row_end : NatInf
  column_end : NatInf
deriving DecidableEq

/-- State after a sequence of update calls on a freshly constructed
element. -/
def applyCalls (calls : List UpdateCall) : TableState :=
  calls.foldl (fun st c => st.update c.row_start c.column_start c.row_end c.column_end) initState

/-- While loop at the head of each row of RenTableElement ._update
(lines 381-388): shift queued regions while the head has
row_end <= row_idx. -/
def dropPassed (i : Nat) : List Region → List Region
  | [] => []
  | r :: rest => if r.row_end.leNat i then dropPassed i rest else r :: rest

/-- Inner region scan of RenTableElement ._update (lines 400-414) for one
cell: walk the queue in order, stop at the first region whose row_start
has not been reached, report a hit at the first region whose column span
contains the cell.  Note the scan tests only the column span, never
row_end. -/
def scanRegions (i c : Nat) : List Region → Bool
  | [] => false
  | r :: rest =>
    if i < r.row_start then false
    else if r.column_start.leNat c && NatInf.natLt c r.column_end then true
    else scanRegions i c rest

/-- Cell loop of one row in RenTableElement ._update (lines 398-415):
the cells of the row whose update method is invoked, in order. -/
def updateRow (i n : Nat) (regs : List Region) : List (Nat × Nat) :=
  ((List.range n).filter (fun c => scanRegions i c regs)).map (fun c => (i, c))

/-- Row loop of RenTableElement ._update (lines 379-416) over the
flattened row sequence, each row given by its cell count; i is the
current flattened row index.  Returns the (row, cell) pairs whose update
method is invoked, in invocation order. -/
def updateLoop : List Nat → Nat → List Region → List (Nat × Nat)
  | [], _, _ => []
  | n :: rest, i, regs =>
    match dropPassed i regs with
    | [] => []
    | r0 :: tl =>
      if i < r0.row_start then updateLoop rest (i + 1) (r0 :: tl)
      else updateRow i n (r0 :: tl) ++ updateLoop rest (i + 1) (r0 :: tl)

/-- RenTableElement ._update (lines 373-419): reset the handle, run the
row loop, clear the queue unconditionally.  Returns the new scheduler
state and the touched cells. -/
def tableUpdatePass (st : TableState) (rows : List Nat) : TableState × List (Nat × Nat) :=
  ({ update_regions := [], update_handle := false, sched_count := st.sched_count },
   updateLoop rows 0 st.update_regions)

/-- Membership of the cell at flattened row r and column c in the
rectangle of a dirty region. -/
def Region.containsCell (reg : Region) (r c : Nat) : Bool :=
  decide (reg.row_start ≤ r) && NatInf.natLt r reg.row_end &&
    reg.column_start.leNat c && NatInf.natLt c reg.column_end

/-- Lexicographic order on the (row_start, column_start) composite key,
smaller first, as the spec describes the queue order. -/
def lexKeyLE (a b : Region) : Prop :=
  a.row_start < b.row_start ∨
    (a.row_start = b.row_start ∧ a.column_start.le b.column_start = true)

instance (a b : Region) : Decidable (lexKeyLE a b) := by
  unfold lexKeyLE; infer_instance

/-! Header-row mutation handling (RenTableElement.on_thead_tr_children_changed,
lines 446-478). -/

/-- DOM node as seen by the mutation records: an identity and whether its
nodeType is ELEMENT_NODE. -/
structure DomNode where
  nid : Nat
  isElement : Bool
deriving DecidableEq

/-- One MutationRecord delivered to on_thead_tr_children_changed.  The
previousSibling of the change point is given directly; prevElemSibling
is the previousElementSibling of that previousSibling, consulted by the
handler when previousSibling is not an element node. -/
structure HeaderMutation where
  addedNodes : List DomNode
  removedNodes : List DomNode
  previousSibling : Option DomNode
  prevElemSibling : Option DomNode
deriving DecidableEq

/-- Check of lines 452-454: the mutation added or removed at least one
element node. -/
def hasElemNodes (m : HeaderMutation) : Bool :=
  (m.addedNodes ++ m.removedNodes).any (·.isElement)

/-- Lines 456-459: the previous element sibling of the change point, with
the non-element previousSibling replaced by its previousElementSibling. -/
def effPrev (m : HeaderMutation) : Option DomNode :=
  match m.previousSibling with
  | none => none
  | some p => if p.isElement then some p else m.prevElemSibling

/-- JS Array.prototype.indexOf over the current element children of the
header row (given by node identity): index of the first occurrence, or
-1 when absent. -/
def jsIndexOf : List Nat → Nat → Int
  | [], _ => -1
  | a :: l, x =>
    if a = x then 0
    else
      let r := jsIndexOf l x
      if r = -1 then -1 else r + 1

/-- Previous-sibling index contributed by one mutation: -1 when the change
point has no previous element sibling (first cell changed), else the
indexOf of that sibling among the current children (lines 461-471). -/
def prevIdx (children : List Nat) (m : HeaderMutation) : Int :=
  match effPrev m with
  | none => -1
  | some p => jsIndexOf children p.nid

/-- Math.min with the running accumulator, none standing for the initial
Number.POSITIVE_INFINITY. -/
def jsMin (acc : Option Int) (i : Int) : Int :=
  match acc with
  | none => i
  | some a => min a i

/-- Mutation loop of on_thead_tr_children_changed (lines 451-473),
including the early break when a change point has no previous element
sibling. -/
def findLoop (children : List Nat) : List HeaderMutation → Option Int → Option Int
  | [], acc => acc
  | m :: rest, acc =>
    if hasElemNodes m then
      match effPrev m with
      | none => some (-1)
      | some p => findLoop children rest (some (jsMin acc (jsIndexOf children p.nid)))
    else findLoop children rest acc

/-- Fold of jsMin over a list, starting from the infinite accumulator:
the reference value the loop computes when it never breaks. -/
def jsFoldMin (l : List Int) : Option Int :=
  l.foldl (fun acc i => some (jsMin acc i)) none

/-- Column the handler updates from (line 476): one past the found
previous-sibling index, infinite when no mutation carried element
nodes. -/
def firstUpdateColumn (children : List Nat) (muts : List HeaderMutation) : NatInf :=
  match findLoop children muts none with
  | none => .inf
  | some i => .fin (i + 1).toNat

/-- RenTableElement.on_thead_tr_children_changed (lines 446-478): compute
the first affected column and enqueue update(0, first_update_column)
with unbounded ends. -/
def onTheadTrChildrenChanged (st : TableState) (children : List Nat)
    (muts : List HeaderMutation) : TableState :=
  st.update 0 (firstUpdateColumn children muts) .inf .inf

/-! Cells, headers, type resolution (RenHeaderElement, RenCellElement) and
the registries of RenTableElement. -/

deriving instance DecidableEq for Except

/-- Rational multiplication through mkRat, definitionally computable in
the kernel (the library mul of Rat does not reduce there). -/
def ratMul (a b : ℚ) : ℚ := mkRat (a.num * b.num) (a.den * b.den)

/-- Rational addition through mkRat, definitionally computable in the
kernel. -/
def ratAdd (a b : ℚ) : ℚ := mkRat (a.num * b.den + b.num * a.den) (a.den * b.den)

/-- Rational division through mkRat, definitionally computable in the
kernel; division by zero gives 0 (callers test the divisor first). -/
def ratDiv (a b : ℚ) : ℚ :=
  let n := a.num * (b.den : Int)
  let d := b.num * (a.den : Int)
  if d < 0 then mkRat (-n) d.natAbs else mkRat n d.natAbs

/-- JS primitive value occurring in the datasets fed to from and in the
object rows: string, number (integral in the embedding), boolean, null
or undefined. -/
inductive JSVal where
  | vstr (s : String)
  | vnum (n : Int)
  | vbool (b : Bool)
  | vnull
  | vundefined
deriving DecidableEq

/-- JS truthiness of a primitive value. -/
def JSVal.truthy : JSVal → Bool
  | .vstr s => s ≠ ""
  | .vnum n => n ≠ 0
  | .vbool b => b
  | .vnull => false
  | .vundefined => false

/-- Nullish coalescing v ?? d. -/
def JSVal.orElse (v : JSVal) (d : JSVal) : JSVal :=
  match v with
  | .vnull => d
  | .vundefined => d
  | _ => v

/-- JS String conversion of a primitive value (also the stringification
setAttribute applies when a cell value is assigned). -/
def JSVal.toJSString : JSVal → String
  | .vstr s => s
  | .vnum n => toString n
  | .vbool b => if b then "true" else "false"
  | .vnull => "null"
  | .vundefined => "undefined"

/-- Truthiness of a getAttribute result (a string or null): true exactly
for a present non-empty string. -/
def attrTruthy : Option String → Bool
  | none => false
  | some s => s ≠ ""

/-- Header cell (ren-th): its type, name and max attributes, each possibly
absent.  The resolved th.type is the attribute with default text
(RenHeaderElement.type getter, line 499). -/
structure Header where
  htype : Option String
  hname : Option String
  hmax : Option String
deriving DecidableEq

/-- Resolved type of a header cell: getAttribute type with default
text. -/
def Header.resolvedType (h : Header) : String := h.htype.getD "text"

/-- Body cell (ren-td): its value and max attributes, possibly absent.
The value getter returns getAttribute value, null when the attribute was
never set (line 551). -/
structure Cell where
  value : Option String
  cmax : Option String
deriving DecidableEq

/-- View of a body cell handed to a renderer or exporter: the value and
max attributes and the max attribute of the header at the same column
(null when the header or its attribute is absent). -/
structure CellView where
  value : Option String
  cmax : Option String
  headerMax : Option String
deriving DecidableEq

/-- Result of a JS numeric operation: a rational, NaN, or a signed
infinity. -/
inductive JSNum where
  | num (q : ℚ)
  | nan
  | posinf
  | neginf
deriving DecidableEq

/-- Whitespace as trimmed by JS number conversion (the embedding handles
the ASCII kinds). -/
def jsWS (c : Char) : Bool :=
  c = ' ' || c = '\t' || c = '\n' || c = '\r'

/-- Value of a run of decimal digit characters, none when a non-digit
occurs. -/
def digitsVal : List Char → Option Nat
  | [] => some 0
  | c :: rest =>
    if c.isDigit then
      (digitsVal rest).map (fun v => (c.toNat - 48) * 10 ^ rest.length + v)
    else none

/-- Decimal literal parser for the unsigned part of a JS number: digits
with an optional fractional part, at least one digit overall.  Hex,
exponent and other notations of full JS are outside the embedded
subset. -/
def parseDecCore (cs : List Char) : Option ℚ :=
  let intPart := cs.takeWhile (·.isDigit)
  let rest := cs.dropWhile (·.isDigit)
  match rest with
  | [] =>
    if intPart.isEmpty then none
    else (digitsVal intPart).map (fun v => (v : ℚ))
  | '.' :: frac =>
    if frac.all (·.isDigit) && !(intPart.isEmpty && frac.isEmpty) then
      (digitsVal intPart).bind (fun ip =>
        (digitsVal frac).map (fun fp =>
          mkRat (ip * 10 ^ frac.length + fp) (10 ^ frac.length)))
    else none
  | _ => none

/-- JS Number conversion of a string: empty or all-whitespace gives 0,
the Infinity spellings give infinities, otherwise an optionally signed
decimal literal, anything else NaN. -/
def jsStringToNumber (s : String) : JSNum :=
  let cs := ((s.toList.dropWhile jsWS).reverse.dropWhile jsWS).reverse
  if cs.isEmpty then .num 0
  else if cs = "Infinity".toList || cs = "+Infinity".toList then .posinf
  else if cs = "-Infinity".toList then .neginf
  else
    match cs with
    | '-' :: body =>
      match parseDecCore body with
      | some q => .num (-q)
      | none => .nan
    | '+' :: body =>
      match parseDecCore body with
      | some q => .num q
      | none => .nan
    | body =>
      match parseDecCore body with
      | some q => .num q
      | none => .nan

/-- JS Number conversion of a getAttribute result: null converts to 0. -/
def jsNumberOfAttr : Option String → JSNum
  | none => .num 0
  | some s => jsStringToNumber s

/-- JS division on numeric results, with NaN propagation, zero-divisor
infinities and the indeterminate forms. -/
def jsDiv : JSNum → JSNum → JSNum
  | .nan, _ => .nan
  | _, .nan => .nan
  | .num a, .num b =>
    if b = 0 then
      if a = 0 then .nan
      else if a > 0 then .posinf else .neginf
    else .num (ratDiv a b)
  | .num _, .posinf => .num 0
  | .num _, .neginf => .num 0
  | .posinf, .num b => if b < 0 then .neginf else .posinf
  | .neginf, .num b => if b < 0 then .posinf else .neginf
  | .posinf, .posinf => .nan
  | .posinf, .neginf => .nan
  | .neginf, .posinf => .nan
  | .neginf, .neginf => .nan

/-- JS multiplication on numeric results (used by the progress
renderer). -/
def jsMul : JSNum → JSNum → JSNum
  | .nan, _ => .nan
  | _, .nan => .nan
  | .num a, .num b => .num (ratMul a b)
  | .num a, .posinf => if a = 0 then .nan else if a > 0 then .posinf else .neginf
  | .num a, .neginf => if a = 0 then .nan else if a > 0 then .neginf else .posinf
  | .posinf, .num b => if b = 0 then .nan else if b > 0 then .posinf else .neginf
  | .neginf, .num b => if b = 0 then .nan else if b > 0 then .neginf else .posinf
  | .posinf, .posinf => .posinf
  | .posinf, .neginf => .neginf
  | .neginf, .posinf => .neginf
  | .neginf, .neginf => .posinf

/-- Math.round on a rational: nearest integer, ties toward positive
infinity. -/
def jsRound (q : ℚ) : Int := Rat.floor (ratAdd q (mkRat 1 2))

/-- Display string of a numeric result, as interpolated into the progress
renderer output. -/
def JSNum.display : JSNum → String
  | .num q => toString (jsRound q)
  | .nan => "NaN"
  | .posinf => "Infinity"
  | .neginf => "-Infinity"

/-- Effect of one renderer run on the cell contents. -/
inductive RenderEffect where
  | setText (s : String)
  | setImage (src : Option String)
deriving DecidableEq

/-- Effective max of a progress cell: the cell max attribute, else the
header max attribute, else 100 (lines 92-96 and 113-117). -/
def effectiveMax (td : CellView) : JSNum :=
  match td.cmax with
  | some s => jsStringToNumber s
  | none =>
    match td.headerMax with
    | some s => jsStringToNumber s
    | none => .num 100

/-- Built-in text renderer (lines 83-85): show the value as plain text. -/
def textRenderer (td : CellView) : RenderEffect :=
  .setText (td.value.getD "")

/-- Built-in check renderer (lines 86-89): let v = td.value ?? empty, then
a check mark glyph when v is truthy, a cross mark glyph otherwise. -/
def checkRenderer (td : CellView) : RenderEffect :=
  let v := td.value.getD ""
  .setText (if v ≠ "" then "🗸" else "🞩")

/-- Built-in progress renderer (lines 90-99): percentage text from
100 * value / max rounded. -/
def progressRenderer (td : CellView) : RenderEffect :=
  .setText
    ((jsDiv (jsMul (.num 100) (jsNumberOfAttr td.value)) (effectiveMax td)).display ++ "%")

/-- Built-in img renderer (lines 100-105): replace the contents by an
image whose source is the value. -/
def imgRenderer (td : CellView) : RenderEffect :=
  .setImage td.value

/-- Exported value: what to_array places in the result rows. -/
inductive JSOut where
  | ostr (s : Option String)
  | onum (n : JSNum)
  | obool (b : Bool)
deriving DecidableEq

/-- Built-in check exporter (lines 109-111): double negation of the
value attribute. -/
def checkExporter (td : CellView) : JSOut :=
  .obool (attrTruthy td.value)

/-- Built-in progress exporter (lines 112-120): Number(value) divided by
the effective max. -/
def progressExporter (td : CellView) : JSOut :=
  .onum (jsDiv (jsNumberOfAttr td.value) (effectiveMax td))

/-- Built-in check importer (lines 124-126): the string 1 for a truthy
input, the empty string otherwise. -/
def checkImporter (v : JSVal) : String :=
  if v.truthy then "1" else ""

/-- Built-in progress importer (lines 127-129): String(v ?? "0"). -/
def progressImporter (v : JSVal) : String :=
  (v.orElse (.vstr "0")).toJSString

/-- Mutable registries of RenTableElement: renderers, exporters and
importer functions by type name. -/
structure Registries where
  renderers : String → Option (CellView → RenderEffect)
  exporters : String → Option (CellView → JSOut)
  importerOf : String → Option (JSVal → String)

/-- Renderer registry as statically initialised (lines 82-106). -/
def builtinRenderers : String → Option (CellView → RenderEffect)
  | "text" => some textRenderer
  | "check" => some checkRenderer
  | "progress" => some progressRenderer
  | "img" => some imgRenderer
  | _ => none

/-- Exporter registry as statically initialised (lines 108-121). -/
def builtinExporters : String → Option (CellView → JSOut)
  | "check" => some checkExporter
  | "progress" => some progressExporter
  | _ => none

/-- Importer registry as statically initialised (lines 123-130). -/
def builtinImporters : String → Option (JSVal → String)
  | "check" => some checkImporter
  | "progress" => some progressImporter
  | _ => none

/-- Registries as statically initialised. -/
def builtinRegs : Registries :=
  ⟨builtinRenderers, builtinExporters, builtinImporters⟩

/-! Type resolution of a body cell (RenCellElement.type, line 558-560, and
RenTableElement.header, lines 231-237). -/

/-- Header section of the table: its first tr with the header cells, none
when the section holds no tr (querySelector returns null then). -/
structure THeadSection where
  headerTr : Option (List Header)
deriving DecidableEq

/-- Enclosing table as a body cell sees it: its tHead, none when the
table has no header section. -/
structure TableDom where
  thead : Option THeadSection
deriving DecidableEq

/-- Position of a body cell: its enclosing ren-table (none for a detached
cell) and its column index among its siblings. -/
structure CellPos where
  table : Option TableDom
  index : Nat
deriving DecidableEq

/-- RenTableElement.header idx (lines 231-237): querySelector tr on the
tHead, then index into its children.  Throws a TypeError when the table
has no tHead (null.querySelector) or the tHead has no tr
(null.children); an out of range index merely yields undefined. -/
def tableHeaderAt (t : TableDom) (idx : Nat) : Except Unit (Option Header) :=
  match t.thead with
  | none => .error ()
  | some sec =>
    match sec.headerTr with
    | none => .error ()
    | some hs => .ok (hs.get? idx)

/-- RenCellElement.type (lines 558-560): this.header.type ?? text, where
this.header is this.table?.header(this.index).  Throws a TypeError when
the cell has no table, the table has no header section or header row, or
there is no header cell at the column index (undefined.type). -/
def cellTypeAt (pos : CellPos) : Except Unit String :=
  match pos.table with
  | none => .error ()
  | some t =>
    match tableHeaderAt t pos.index with
    | .error e => .error e
    | .ok none => .error ()
    | .ok (some h) => .ok h.resolvedType

/-- Outcome of one deferred cell render. -/
structure RenderOutcome where
  effect : RenderEffect
  warned : Bool
deriving DecidableEq

/-- RenCellElement ._update (lines 574-589): resolve the type, run the
registered renderer, else emit a console warning and fall back to the
raw value as text.  The only throwing step is the type resolution. -/
def cellUpdate (reg : Registries) (pos : CellPos) (td : CellView) :
    Except Unit RenderOutcome :=
  match cellTypeAt pos with
  | .error e => .error e
  | .ok ty =>
    match reg.renderers ty with
    | some r => .ok ⟨r td, false⟩
    | none => .ok ⟨.setText (td.value.getD ""), true⟩

/-! Bulk data conversion (RenTableElement.from, to_array, clear,
lines 263-333).  The table model presumes a header section with a header
row, which from itself requires (it reads column_names through
this.tHead.querySelector). -/

/-- Table as the conversion methods see it: the header cells of the
header row, and the flattened body rows. -/
structure RenTable where
  headers : List Header
  body : List (List Cell)
deriving DecidableEq

/-- RenTableElement.column_names (lines 213-220). -/
def columnNames (hs : List Header) : List (Option String) :=
  hs.map (·.hname)

/-- RenTableElement.column_types (lines 222-229). -/
def columnTypes (hs : List Header) : List String :=
  hs.map Header.resolvedType

/-- Input row accepted by from: a positional array or a keyed object. -/
inductive JSRow where
  | arr (vs : List JSVal)
  | obj (fields : List (String × JSVal))
deriving DecidableEq

/-- Property read row[k] on an object row: undefined when the key is
absent. -/
def objGet (fields : List (String × JSVal)) (k : String) : JSVal :=
  match fields.find? (fun p => p.1 = k) with
  | some p => p.2
  | none => .vundefined

/-- Cell built for one array-row entry (lines 298-308): the importer of
the column type applied to the entry when one is registered, else the
entry with nullish default empty string, stringified by setAttribute. -/
def mkArrayCell (imp : String → Option (JSVal → String)) (ty : Option String)
    (v : JSVal) : Cell :=
  match ty.bind imp with
  | some f => ⟨some (f v), none⟩
  | none => ⟨some ((v.orElse (.vstr "")).toJSString), none⟩

/-- Cell built for one column of an object row (lines 311-324): no value
at all for a column without a name attribute; else the importer of the
column type applied to the property read (undefined when the key is
absent), or the raw property with nullish default empty string. -/
def mkObjCell (imp : String → Option (JSVal → String)) (ty : Option String)
    (k : Option String) (fields : List (String × JSVal)) : Cell :=
  match k with
  | none => ⟨none, none⟩
  | some key =>
    match ty.bind imp with
    | some f => ⟨some (f (objGet fields key)), none⟩
    | none => ⟨some (((objGet fields key).orElse (.vstr "")).toJSString), none⟩

/-- Cell loop for an array row, i the running column index into the
column types. -/
def buildArrCells (imp : String → Option (JSVal → String)) (types : List String) :
    Nat → List JSVal → List Cell
  | _, [] => []
  | i, v :: rest => mkArrayCell imp (types.get? i) v :: buildArrCells imp types (i + 1) rest

/-- Cell loop for an object row over the column names, i the running
column index into the column types. -/
def buildObjCells (imp : String → Option (JSVal → String)) (types : List String)
    (fields : List (String × JSVal)) : Nat → List (Option String) → List Cell
  | _, [] => []
  | i, k :: rest =>
    mkObjCell imp (types.get? i) k fields :: buildObjCells imp types fields (i + 1) rest

/-- Row construction of from for one input row (lines 294-326). -/
def buildRowCells (imp : String → Option (JSVal → String)) (hs : List Header) :
    JSRow → List Cell
  | .arr vs => buildArrCells imp (columnTypes hs) 0 vs
  | .obj fields => buildObjCells imp (columnTypes hs) fields 0 (columnNames hs)

/-- RenTableElement.clear (lines 329-333): remove every tbody. -/
def renClear (tbl : RenTable) : RenTable :=
  { tbl with body := [] }

/-- RenTableElement.from (lines 287-327): clear the body, then build one
fresh row of cells per input row. -/
def renFrom (reg : Registries) (tbl : RenTable) (data : List JSRow) : RenTable :=
  let t0 := renClear tbl
  { t0 with body := data.map (buildRowCells reg.importerOf tbl.headers) }

/-- Cell view in table context: value and max of the cell, max of the
header at the same index when that header exists. -/
def cellViewAt (hs : List Header) (i : Nat) (c : Cell) : CellView :=
  ⟨c.value, c.cmax, (hs.get? i).bind (·.hmax)⟩

/-- Type resolution of a body cell inside a table whose header section and
row exist: RenCellElement.type through RenTableElement.header. -/
def resolveType (hs : List Header) (i : Nat) : Except Unit String :=
  cellTypeAt ⟨some ⟨some ⟨some hs⟩⟩, i⟩

/-- Export of one body cell (lines 269-278): resolve the type (which
throws when no header cell exists at the index), apply the registered
exporter, else return the raw value attribute. -/
def exportCell (reg : Registries) (hs : List Header) (i : Nat) (c : Cell) :
    Except Unit JSOut :=
  match resolveType hs i with
  | .error e => .error e
  | .ok ty =>
    match reg.exporters ty with
    | some ex => .ok (ex (cellViewAt hs i c))
    | none => .ok (.ostr c.value)

/-- Cell loop of to_array over one row, i the running column index; a
thrown TypeError aborts the whole conversion. -/
def exportRowCells (reg : Registries) (hs : List Header) :
    Nat → List Cell → Except Unit (List JSOut)
  | _, [] => .ok []
  | i, c :: rest =>
    match exportCell reg hs i c with
    | .error e => .error e
    | .ok v =>
      match exportRowCells reg hs (i + 1) rest with
      | .error e => .error e
      | .ok vs => .ok (v :: vs)

/-- Row loop of to_array (lines 263-285). -/
def toArrayRows (reg : Registries) (hs : List Header) :
    List (List Cell) → Except Unit (List (List JSOut))
  | [] => .ok []
  | row :: rest =>
    match exportRowCells reg hs 0 row with
    | .error e => .error e
    | .ok r =>
      match toArrayRows reg hs rest with
      | .error e => .error e
      | .ok rs => .ok (r :: rs)

/-- RenTableElement.to_array (lines 263-285). -/
def renToArray (reg : Registries) (tbl : RenTable) : Except Unit (List (List JSOut)) :=
  toArrayRows reg tbl.headers tbl.body

/-! Claim-side conversion semantics for the round-trip statement: the
stored raw string an import produces for one column, and the exporter
semantics applied to it. -/

/-- Stored raw string of one array-row entry for a given header column. -/
def storedArrVal (reg : Registries) (h : Header) (v : JSVal) : String :=
  match reg.importerOf h.resolvedType with
  | some f => f v
  | none => (v.orElse (.vstr "")).toJSString

/-- Stored raw string of one object-row column: none when the column has
no name attribute. -/
def storedObjVal (reg : Registries) (h : Header) (fields : List (String × JSVal)) :
    Option String :=
  match h.hname with
  | none => none
  | some k =>
    match reg.importerOf h.resolvedType with
    | some f => some (f (objGet fields k))
    | none => some (((objGet fields k).orElse (.vstr "")).toJSString)

/-- Exporter semantics for one column applied to the stored raw string:
the registered exporter on the resulting cell view, else the raw string
itself. -/
def exportSpec (reg : Registries) (h : Header) (stored : Option String) : JSOut :=
  match reg.exporters h.resolvedType with
  | some ex => ex ⟨stored, none, h.hmax⟩
  | none => .ostr stored

/-- Claim-side round trip for an array row, i the running column
index. -/
def arrRoundSpec (reg : Registries) (hs : List Header) :
    Nat → List JSVal → List JSOut
  | _, [] => []
  | i, v :: rest =>
    (match hs.get? i with
     | some h => exportSpec reg h (some (storedArrVal reg h v))
     | none => .ostr none) :: arrRoundSpec reg hs (i + 1) rest

/-- Claim-side round trip for one input row: per column, the exporter
semantics applied to the stored import of the corresponding entry. -/
def roundSpec (reg : Registries) (hs : List Header) : JSRow → List JSOut
  | .arr vs => arrRoundSpec reg hs 0 vs
  | .obj fields => hs.map (fun h => exportSpec reg h (storedObjVal reg h fields))

/-- Shape premise of the round trip: every array row fits into the header
columns (object rows always build exactly one cell per column). -/
def rowFits (hs : List Header) : JSRow → Prop
  | .arr vs => vs.length ≤ hs.length
  | .obj _ => True

instance (hs : List Header) (r : JSRow) : Decidable (rowFits hs r) := by
  cases r <;> unfold rowFits <;> infer_instance

/-! Helper lemmas about the scheduler queue. -/

theorem weightGt_asymm {a b : Option Nat} (h : weightGt a b = true) :
    weightGt b a = false := by
  cases a <;> cases b <;> simp [weightGt] at *
  omega

theorem weightGt_false_trans {a b c : Option Nat} (h1 : weightGt a b = true)
    (h2 : weightGt a c = false) : weightGt b c = false := by
  cases a <;> cases b <;> cases c <;> simp [weightGt] at *
  omega

theorem mem_insertRegion {x e : Region} {l : List Region}
    (h : x ∈ insertRegion e l) : x = e ∨ x ∈ l := by
  induction l with
  | nil => simpa [insertRegion] using h
  | cons r rest ih =>
    rw [insertRegion] at h
    by_cases hgt : weightGt r.weight e.weight = true
    · simp only [hgt, if_true] at h
      rcases List.mem_cons.mp h with rfl | h2
      · exact Or.inl rfl
      · exact Or.inr h2
    · simp only [hgt, if_false] at h
      rcases List.mem_cons.mp h with rfl | h2
      · exact Or.inr (List.mem_cons_self _ _)
      · rcases ih h2 with rfl | h3
        · exact Or.inl rfl
        · exact Or.inr (List.mem_cons_of_mem _ h3)

theorem insertRegion_pairwise {e : Region} {l : List Region}
    (h : l.Pairwise (fun a b => weightGt a.weight b.weight = false)) :
    (insertRegion e l).Pairwise (fun a b => weightGt a.weight b.weight = false) := by
  induction l with
  | nil => simp [insertRegion]
  | cons r rest ih =>
    rw [insertRegion]
    rcases List.pairwise_cons.mp h with ⟨hr, hrest⟩
    by_cases hgt : weightGt r.weight e.weight = true
    · simp only [hgt, if_true]
      refine List.Pairwise.cons ?_ h
      intro x hx
      rcases List.mem_cons.mp hx with rfl | hx2
      · exact weightGt_asymm hgt
      · exact weightGt_false_trans hgt (hr x hx2)
    · have hgt2 : weightGt r.weight e.weight = false := by
        exact Bool.eq_false_iff.mpr (fun hh => hgt hh)
      simp only [hgt, if_false]
      refine List.Pairwise.cons ?_ (ih hrest)
      intro x hx
      rcases mem_insertRegion hx with rfl | hx2
      · exact hgt2
      · exact hr x hx2

theorem applyCalls_foldl_pairwise (cs : List UpdateCall) :
    ∀ st : TableState,
      st.update_regions.Pairwise (fun a b => weightGt a.weight b.weight = false) →
      ((cs.foldl
        (fun st c => st.update c.row_start c.column_start c.row_end c.column_end)
        st).update_regions).Pairwise
        (fun a b => weightGt a.weight b.weight = false) := by
  induction cs with
  | nil => intro st h; exact h
  | cons c rest ih =>
    intro st h
    exact ih _ (insertRegion_pairwise h)

theorem foldl_update_handle (cs : List UpdateCall) :
    ∀ st : TableState, st.update_handle = true →
      (cs.foldl
        (fun st c => st.update c.row_start c.column_start c.row_end c.column_end)
        st).sched_count = st.sched_count ∧
      (cs.foldl
        (fun st c => st.update c.row_start c.column_start c.row_end c.column_end)
        st).update_handle = true := by
  induction cs with
  | nil => intro st h; exact ⟨rfl, h⟩
  | cons c rest ih =>
    intro st h
    have hstep :
        (st.update c.row_start c.column_start c.row_end c.column_end).sched_count =
          st.sched_count := by
      simp [TableState.update, h]
    rcases ih (st.update c.row_start c.column_start c.row_end c.column_end) rfl with
      ⟨h1, h2⟩
    exact ⟨h1.trans hstep, h2⟩

/-! Helper lemmas about one render pass. -/

theorem updateRow_mem {p : Nat × Nat} {i n : Nat} {regs : List Region} :
    p ∈ updateRow i n regs ↔
      ∃ c, p = (i, c) ∧ c < n ∧ scanRegions i c regs = true := by
  simp only [updateRow, List.mem_map, List.mem_filter, List.mem_range]
  constructor
  · rintro ⟨c, ⟨hc, hs⟩, rfl⟩
    exact ⟨c, rfl, hc, hs⟩
  · rintro ⟨c, rfl, hc, hs⟩
    exact ⟨c, ⟨hc, hs⟩, rfl⟩

theorem updateRow_nodup (i n : Nat) (regs : List Region) :
    (updateRow i n regs).Nodup := by
  refine List.Nodup.map ?_ (List.Nodup.filter _ (List.nodup_range n))
  intro a b hab
  exact (Prod.mk.injEq _ _ _ _).mp hab |>.2

theorem dropPassed_sublist (i : Nat) (regs : List Region) :
    (dropPassed i regs).Sublist regs := by
  induction regs with
  | nil => simp [dropPassed]
  | cons r rest ih =>
    rw [dropPassed]
    by_cases h : r.row_end.leNat i = true
    · simp only [h, if_true]
      exact ih.cons r
    · simp only [h, if_false]
      exact List.Sublist.refl _

theorem dropPassed_mem {reg : Region} {i : Nat} {regs : List Region}
    (h : reg ∈ regs) (hend : reg.row_end.leNat i = false) :
    reg ∈ dropPassed i regs := by
  induction regs with
  | nil => simp at h
  | cons r rest ih =>
    rw [dropPassed]
    by_cases hr : r.row_end.leNat i = true
    · simp only [hr, if_true]
      rcases List.mem_cons.mp h with rfl | h2
      · rw [hr] at hend; cases hend
      · exact ih h2
    · simp only [hr, if_false]
      exact h

theorem scanRegions_sound {i c : Nat} {regs : List Region}
    (h : scanRegions i c regs = true) :
    ∃ reg ∈ regs, reg.row_start ≤ i ∧
      reg.column_start.leNat c = true ∧ NatInf.natLt c reg.column_end = true := by
  induction regs with
  | nil => simp [scanRegions] at h
  | cons r rest ih =>
    rw [scanRegions] at h
    by_cases hrow : i < r.row_start
    · rw [if_pos hrow] at h; cases h
    · rw [if_neg hrow] at h
      by_cases hcol : (r.column_start.leNat c && NatInf.natLt c r.column_end) = true
      · have h12 : r.column_start.leNat c = true ∧ NatInf.natLt c r.column_end = true := by
          simpa using hcol
        exact ⟨r, List.mem_cons_self _ _, Nat.le_of_not_lt hrow, h12.1, h12.2⟩
      · rw [if_neg hcol] at h
        rcases ih h with ⟨reg, hmem, hs⟩
        exact ⟨reg, List.mem_cons_of_mem _ hmem, hs⟩

theorem scanRegions_complete {i c : Nat} {regs : List Region} {reg : Region}
    (hsorted : regs.Pairwise (fun a b => a.row_start ≤ b.row_start))
    (hmem : reg ∈ regs) (hrow : reg.row_start ≤ i)
    (h1 : reg.column_start.leNat c = true) (h2 : NatInf.natLt c reg.column_end = true) :
    scanRegions i c regs = true := by
  induction regs with
  | nil => simp at hmem
  | cons r rest ih =>
    rcases List.pairwise_cons.mp hsorted with ⟨hr, hrest⟩
    have hrlow : r.row_start ≤ i := by
      rcases List.mem_cons.mp hmem with rfl | h3
      · exact hrow
      · exact le_trans (hr reg h3) hrow
    rw [scanRegions]
    rw [if_neg (Nat.not_lt.mpr hrlow)]
    by_cases hcol : (r.column_start.leNat c && NatInf.natLt c r.column_end) = true
    · rw [if_pos hcol]
    · rw [if_neg hcol]
      rcases List.mem_cons.mp hmem with rfl | h3
      · rw [h1, h2] at hcol; simp at hcol
      · exact ih hrest h3


theorem updateLoop_eq_nil {n : Nat} {rest : List Nat} {i : Nat} {regs : List Region}
    (h : dropPassed i regs = []) : updateLoop (n :: rest) i regs = [] := by
  rw [updateLoop, h]

theorem updateLoop_eq_cons {n : Nat} {rest : List Nat} {i : Nat} {regs : List Region}
    {r0 : Region} {tl : List Region} (h : dropPassed i regs = r0 :: tl) :
    updateLoop (n :: rest) i regs =
      if i < r0.row_start then updateLoop rest (i + 1) (r0 :: tl)
      else updateRow i n (r0 :: tl) ++ updateLoop rest (i + 1) (r0 :: tl) := by
  rw [updateLoop, h]

theorem updateLoop_sound {rows : List Nat} :
    ∀ {i : Nat} {regs : List Region} {r c : Nat},
      (r, c) ∈ updateLoop rows i regs →
      (i ≤ r ∧ ∃ n, rows.get? (r - i) = some n ∧ c < n) ∧
        ∃ reg ∈ regs, reg.row_start ≤ r ∧
          reg.column_start.leNat c = true ∧ NatInf.natLt c reg.column_end = true := by
  induction rows with
  | nil => intro i regs r c h; simp [updateLoop] at h
  | cons n rest ih =>
    intro i regs r c h
    rcases hdp : dropPassed i regs with _ | ⟨r0, tl⟩
    · rw [updateLoop_eq_nil hdp] at h; cases h
    · rw [updateLoop_eq_cons hdp] at h
      have hsub : ∀ x, x ∈ (r0 :: tl) → x ∈ regs := fun x hx =>
        (dropPassed_sublist i regs).mem (hdp ▸ hx)
      have hrec :
          (r, c) ∈ updateLoop rest (i + 1) (r0 :: tl) →
          (i ≤ r ∧ ∃ n2, (n :: rest).get? (r - i) = some n2 ∧ c < n2) ∧
            ∃ reg ∈ regs, reg.row_start ≤ r ∧
              reg.column_start.leNat c = true ∧ NatInf.natLt c reg.column_end = true := by
        intro h2
        rcases ih h2 with ⟨⟨hle, n2, hget, hc⟩, reg, hmem, hs⟩
        refine ⟨⟨Nat.le_of_succ_le hle, n2, ?_, hc⟩, reg, hsub reg hmem, hs⟩
        have heq : r - i = (r - (i + 1)) + 1 := by omega
        rw [heq]
        simpa using hget
      by_cases hrow : i < r0.row_start
      · rw [if_pos hrow] at h
        exact hrec h
      · rw [if_neg hrow] at h
        rcases List.mem_append.mp h with hl | hr
        · rcases updateRow_mem.mp hl with ⟨c2, hpc, hcn, hscan⟩
          simp only [Prod.mk.injEq] at hpc
          rcases hpc with ⟨rfl, rfl⟩
          rcases scanRegions_sound hscan with ⟨reg, hmem, hs⟩
          exact ⟨⟨Nat.le_refl _, n, by simp, hcn⟩, reg, hsub reg hmem, hs⟩
        · exact hrec hr

theorem updateLoop_complete {rows : List Nat} :
    ∀ {i : Nat} {regs : List Region} {r c n : Nat} {reg : Region},
      regs.Pairwise (fun a b => a.row_start ≤ b.row_start) →
      i ≤ r → rows.get? (r - i) = some n → c < n →
      reg ∈ regs → reg.containsCell r c = true →
      (r, c) ∈ updateLoop rows i regs := by
  induction rows with
  | nil => intro i regs r c n reg _ _ hget _ _ _; simp at hget
  | cons m rest ih =>
    intro i regs r c n reg hsorted hir hget hcn hmem hcont
    have hc4 : reg.row_start ≤ r ∧ NatInf.natLt r reg.row_end = true ∧
        reg.column_start.leNat c = true ∧ NatInf.natLt c reg.column_end = true := by
      have h0 := hcont
      rw [Region.containsCell] at h0
      simpa [and_assoc] using h0
    rcases hc4 with ⟨hrs, hre, hcs, hce⟩
    have hend : reg.row_end.leNat i = false := by
      cases hre2 : reg.row_end with
      | inf => rfl
      | fin b =>
        rw [hre2] at hre
        have hb : r < b := by simpa [NatInf.natLt] using hre
        simp only [NatInf.leNat]
        simp only [decide_eq_false_iff_not]
        omega
    have hmem2 : reg ∈ dropPassed i regs := dropPassed_mem hmem hend
    have hsorted2 : (dropPassed i regs).Pairwise (fun a b => a.row_start ≤ b.row_start) :=
      hsorted.sublist (dropPassed_sublist i regs)
    rcases hdp : dropPassed i regs with _ | ⟨r0, tl⟩
    · rw [hdp] at hmem2; cases hmem2
    · rw [hdp] at hmem2 hsorted2
      rw [updateLoop_eq_cons hdp]
      rcases Nat.eq_or_lt_of_le hir with rfl | hlt
      · have hnotlt : ¬ i < r0.row_start := by
          rcases List.mem_cons.mp hmem2 with rfl | h3
          · omega
          · rcases List.pairwise_cons.mp hsorted2 with ⟨hr0, _⟩
            have := hr0 reg h3
            omega
        rw [if_neg hnotlt]
        refine List.mem_append.mpr (Or.inl ?_)
        refine updateRow_mem.mpr ⟨c, rfl, ?_, ?_⟩
        · have hm : m = n := by simpa using hget
          omega
        · exact scanRegions_complete hsorted2 hmem2 hrs hcs hce
      · have hget2 : rest.get? (r - (i + 1)) = some n := by
          have heq : r - i = (r - (i + 1)) + 1 := by omega
          rw [heq] at hget
          simpa using hget
        have hrec := ih hsorted2 hlt hget2 hcn hmem2 hcont
        by_cases hrow : i < r0.row_start
        · rw [if_pos hrow]
          exact hrec
        · rw [if_neg hrow]
          exact List.mem_append.mpr (Or.inr hrec)

theorem updateLoop_fst_ge {rows : List Nat} {i : Nat} {regs : List Region}
    {p : Nat × Nat} (h : p ∈ updateLoop rows i regs) : i ≤ p.1 := by
  rcases p with ⟨r, c⟩
  exact (updateLoop_sound h).1.1

theorem updateLoop_nodup (rows : List Nat) :
    ∀ (i : Nat) (regs : List Region), (updateLoop rows i regs).Nodup := by
  induction rows with
  | nil => intro i regs; simp [updateLoop]
  | cons n rest ih =>
    intro i regs
    rcases hdp : dropPassed i regs with _ | ⟨r0, tl⟩
    · rw [updateLoop_eq_nil hdp]; exact List.nodup_nil
    · rw [updateLoop_eq_cons hdp]
      by_cases hrow : i < r0.row_start
      · rw [if_pos hrow]; exact ih _ _
      · rw [if_neg hrow]
        refine List.Nodup.append (updateRow_nodup _ _ _) (ih _ _) ?_
        intro p hp1 hp2
        rcases updateRow_mem.mp hp1 with ⟨c2, rfl, _, _⟩
        have := updateLoop_fst_ge hp2
        simp at this

/-! Claim theorems about the scheduler. -/

/-- C1 counterexample: the render pass does not touch exactly the cells
inside pending rectangles.  First part: after update(0,0,inf,1) and
update(0,2,1,3) on a 2 by 3 table, cell (1,2) is touched although it
lies in neither rectangle (the second region has expired at row 1 but is
not removed because it is not the queue head, and the inner scan never
tests row_end).  Second part: after update(3,0) and update(12,0) has
been reordered by the digit-concatenation weights -- here update(3,0)
then update(2,15), whose weights 30 and 215 leave the queue with
row_start order 3 before 2 -- cell (2,15) lies inside the rectangle of
the second pending region of a 4 by 16 table but is never touched,
because the head row_start 3 makes the pass skip row 2 entirely. -/
theorem render_pass_rect_iff_fails :
    ((applyCalls [⟨0, .fin 0, .inf, .fin 1⟩, ⟨0, .fin 2, .fin 1, .fin 3⟩]).update_regions =
        [⟨0, .fin 0, .inf, .fin 1⟩, ⟨0, .fin 2, .fin 1, .fin 3⟩] ∧
      (1, 2) ∈ updateLoop [3, 3] 0
        [⟨0, .fin 0, .inf, .fin 1⟩, ⟨0, .fin 2, .fin 1, .fin 3⟩] ∧
      Region.containsCell ⟨0, .fin 0, .inf, .fin 1⟩ 1 2 = false ∧
      Region.containsCell ⟨0, .fin 2, .fin 1, .fin 3⟩ 1 2 = false) ∧
    ((applyCalls [⟨3, .fin 0, .inf, .inf⟩, ⟨2, .fin 15, .inf, .inf⟩]).update_regions =
        [⟨3, .fin 0, .inf, .inf⟩, ⟨2, .fin 15, .inf, .inf⟩] ∧
      Region.containsCell ⟨2, .fin 15, .inf, .inf⟩ 2 15 = true ∧
      (2, 15) ∉ updateLoop [16, 16, 16, 16] 0
        [⟨3, .fin 0, .inf, .inf⟩, ⟨2, .fin 15, .inf, .inf⟩]) := by
  decide

/-- C1 (amended): provided the pending queue is sorted by row_start
(which the digit-concatenation weight order does not always guarantee),
the pass touches every cell of the current table that lies inside some
pending rectangle; and every touched cell exists in the table and lies,
for some pending region, at or after its row_start and inside its column
span -- but possibly at or after its row_end, because the inner scan
never tests row_end. -/
theorem render_pass_touches_amended (st : TableState) (rows : List Nat)
    (hsorted : st.update_regions.Pairwise (fun a b => a.row_start ≤ b.row_start)) :
    (∀ r c n, rows.get? r = some n → c < n →
        (∃ reg ∈ st.update_regions, reg.containsCell r c = true) →
        (r, c) ∈ (tableUpdatePass st rows).2) ∧
    (∀ r c, (r, c) ∈ (tableUpdatePass st rows).2 →
        (∃ n, rows.get? r = some n ∧ c < n) ∧
        ∃ reg ∈ st.update_regions, reg.row_start ≤ r ∧
          reg.column_start.leNat c = true ∧ NatInf.natLt c reg.column_end = true) := by
  constructor
  · intro r c n hget hc hex
    rcases hex with ⟨reg, hmem, hcont⟩
    have hget0 : rows.get? (r - 0) = some n := by simpa using hget
    exact updateLoop_complete hsorted (Nat.zero_le r) hget0 hc hmem hcont
  · intro r c h
    rcases updateLoop_sound h with ⟨⟨_, n, hget, hc⟩, hreg⟩
    exact ⟨⟨n, by simpa using hget, hc⟩, hreg⟩

/-- Witness for the amended C1 theorem at a concrete sorted queue. -/
theorem render_pass_touches_amended_witness :
    (0, 0) ∈ (tableUpdatePass ⟨[⟨0, .fin 0, .inf, .fin 1⟩], true, 0⟩ [2]).2 :=
  (render_pass_touches_amended ⟨[⟨0, .fin 0, .inf, .fin 1⟩], true, 0⟩ [2]
    (by decide)).1 0 0 2 (by decide) (by decide)
    ⟨⟨0, .fin 0, .inf, .fin 1⟩, by decide, by decide⟩

/-- C2 counterexample: after update(12,0,inf,inf) followed by
update(1,20,inf,inf) the queue keeps the insertion order, because the
concatenation weights Number of 120 collide; the earlier entry has key
(12,0), the later (1,20), so earlier keys are not lexicographically at
most later ones. -/
theorem update_queue_lex_order_fails :
    (applyCalls [⟨12, .fin 0, .inf, .inf⟩, ⟨1, .fin 20, .inf, .inf⟩]).update_regions =
        [⟨12, .fin 0, .inf, .inf⟩, ⟨1, .fin 20, .inf, .inf⟩] ∧
      ¬ lexKeyLE ⟨12, .fin 0, .inf, .inf⟩ ⟨1, .fin 20, .inf, .inf⟩ := by
  decide

/-- C2 (amended): after every sequence of update calls the queue is
ascending in the weight Number(String(row_start) + String(column_start)):
no earlier entry has a strictly greater weight than a later one, all
comparisons against the NaN weight of an infinite column_start being
vacuously not-greater. -/
theorem update_queue_weight_ascending (calls : List UpdateCall) :
    ((applyCalls calls).update_regions).Pairwise
      (fun a b => weightGt a.weight b.weight = false) :=
  applyCalls_foldl_pairwise calls initState (by simp [initState])

/-- C3: any nonempty sequence of update calls before the deferred pass
schedules exactly one setTimeout, and within one pass no cell has its
update method invoked twice, however the pending regions overlap. -/
theorem update_single_pass_single_render :
    (∀ calls : List UpdateCall, calls ≠ [] → (applyCalls calls).sched_count = 1) ∧
    (∀ (st : TableState) (rows : List Nat), (tableUpdatePass st rows).2.Nodup) := by
  constructor
  · intro calls hne
    rcases calls with _ | ⟨c, cs⟩
    · cases hne rfl
    · have h1 : (initState.update c.row_start c.column_start c.row_end
          c.column_end).update_handle = true := rfl
      have h2 : (initState.update c.row_start c.column_start c.row_end
          c.column_end).sched_count = 1 := rfl
      rw [applyCalls, List.foldl_cons]
      rcases foldl_update_handle cs _ h1 with ⟨hc, _⟩
      rw [hc, h2]
  · intro st rows
    exact updateLoop_nodup rows 0 st.update_regions

/-- Witness for the C3 theorem: one call schedules exactly one pass, and
a pass over two overlapping regions renders each cell once. -/
theorem update_single_pass_single_render_witness :
    (applyCalls [⟨0, .fin 0, .inf, .inf⟩]).sched_count = 1 ∧
      (tableUpdatePass ⟨[⟨0, .fin 0, .inf, .fin 2⟩, ⟨0, .fin 1, .inf, .fin 3⟩], true, 1⟩
        [3]).2.Nodup :=
  ⟨update_single_pass_single_render.1 [⟨0, .fin 0, .inf, .inf⟩] (by decide),
   update_single_pass_single_render.2
      ⟨[⟨0, .fin 0, .inf, .fin 2⟩, ⟨0, .fin 1, .inf, .fin 3⟩], true, 1⟩ [3]⟩

/-- C4: at the end of one render pass the update queue is empty, whatever
the queue and the table contents were, in particular when regions start
beyond the last existing row and are never reached. -/
theorem render_pass_clears_queue (st : TableState) (rows : List Nat) :
    (tableUpdatePass st rows).1.update_regions = [] := rfl

/-! Helper lemmas about the header-row mutation handler. -/

theorem jsIndexOf_ge (l : List Nat) (x : Nat) : -1 ≤ jsIndexOf l x := by
  induction l with
  | nil => simp [jsIndexOf]
  | cons a rest ih =>
    rw [jsIndexOf]
    by_cases ha : a = x
    · rw [if_pos ha]; omega
    · rw [if_neg ha]
      by_cases hr : jsIndexOf rest x = -1
      · simp only [hr, if_pos]; omega
      · simp only [if_neg hr]; omega

theorem prevIdx_ge (children : List Nat) (m : HeaderMutation) :
    -1 ≤ prevIdx children m := by
  cases hep : effPrev m with
  | none => simp [prevIdx, hep]
  | some p =>
    simp only [prevIdx, hep]
    exact jsIndexOf_ge children p.nid

theorem foldMin_some (l : List Int) :
    ∀ a : Int, l.foldl (fun ac i => some (jsMin ac i)) (some a) = some (l.foldl min a) := by
  induction l with
  | nil => intro a; rfl
  | cons i rest ih => intro a; exact ih (min a i)

theorem foldl_min_mem (l : List Int) :
    ∀ a : Int, l.foldl min a = a ∨ l.foldl min a ∈ l := by
  induction l with
  | nil => intro a; exact Or.inl rfl
  | cons i rest ih =>
    intro a
    rcases ih (min a i) with h | h
    · rcases min_choice a i with hm | hm
      · rw [List.foldl_cons, h, hm]; exact Or.inl rfl
      · rw [List.foldl_cons, h, hm]; exact Or.inr (List.mem_cons_self _ _)
    · exact Or.inr (List.mem_cons_of_mem _ h)

theorem foldl_min_le_init (l : List Int) : ∀ a : Int, l.foldl min a ≤ a := by
  induction l with
  | nil => intro a; exact le_refl a
  | cons i rest ih =>
    intro a
    exact le_trans (ih (min a i)) (min_le_left a i)

theorem foldl_min_le_mem (l : List Int) :
    ∀ (a x : Int), x ∈ l → l.foldl min a ≤ x := by
  induction l with
  | nil => intro a x hx; simp at hx
  | cons i rest ih =>
    intro a x hx
    rcases List.mem_cons.mp hx with rfl | hx2
    · exact le_trans (foldl_min_le_init rest (min a x)) (min_le_right a x)
    · exact ih (min a i) x hx2

theorem foldMin_neg_one (l : List Int) (hl : ∀ i ∈ l, -1 ≤ i) :
    l.foldl (fun ac i => some (jsMin ac i)) (some (-1)) = some (-1) := by
  rw [foldMin_some]
  have h1 := foldl_min_le_init l (-1)
  rcases foldl_min_mem l (-1) with h | h
  · rw [h]
  · have := hl _ h
    have : l.foldl min (-1) = -1 := le_antisymm h1 (by omega)
    rw [this]

theorem findLoop_eq (children : List Nat) :
    ∀ (muts : List HeaderMutation) (acc : Option Int),
      (acc = none ∨ ∃ a, acc = some a ∧ -1 ≤ a) →
      findLoop children muts acc =
        ((muts.filter hasElemNodes).map (prevIdx children)).foldl
          (fun ac i => some (jsMin ac i)) acc := by
  intro muts
  induction muts with
  | nil => intro acc hacc; rfl
  | cons m rest ih =>
    intro acc hacc
    rw [findLoop]
    by_cases hel : hasElemNodes m = true
    · rw [if_pos hel]
      have hfil : (m :: rest).filter hasElemNodes = m :: rest.filter hasElemNodes := by
        simp [List.filter_cons, hel]
      rw [hfil, List.map_cons, List.foldl_cons]
      rcases hep : effPrev m with _ | p
      · have hpi : prevIdx children m = -1 := by rw [prevIdx, hep]
        rw [hpi]
        have hmin : jsMin acc (-1) = -1 := by
          rcases hacc with rfl | ⟨a, rfl, ha⟩
          · rfl
          · simp [jsMin]; omega
        rw [hmin]
        rw [foldMin_neg_one]
        intro i hi
        rcases List.mem_map.mp hi with ⟨m2, _, rfl⟩
        exact prevIdx_ge children m2
      · have hpi : prevIdx children m = jsIndexOf children p.nid := by
          rw [prevIdx, hep]
        rw [hpi]
        refine ih _ (Or.inr ⟨jsMin acc (jsIndexOf children p.nid), rfl, ?_⟩)
        have := jsIndexOf_ge children p.nid
        rcases hacc with rfl | ⟨a, rfl, ha⟩
        · simpa [jsMin] using this
        · simp only [jsMin]; omega
    · rw [if_neg hel]
      have hfil : (m :: rest).filter hasElemNodes = rest.filter hasElemNodes := by
        simp [List.filter_cons, hel]
      rw [hfil]
      exact ih acc hacc

/-- C7: when at least one header-row mutation added or removed an element
node, the handler enqueues exactly the region update(0, pv + 1, inf, inf)
where pv is the least previous-element-sibling index over those
mutations (-1 when a first cell changed), and that region covers all
rows of exactly the columns at or after pv + 1. -/
theorem header_mutation_updates_from_column (st : TableState) (children : List Nat)
    (muts : List HeaderMutation) (h : ∃ m ∈ muts, hasElemNodes m = true) :
    ∃ pv : Int, -1 ≤ pv ∧
      pv ∈ (muts.filter hasElemNodes).map (prevIdx children) ∧
      (∀ x ∈ (muts.filter hasElemNodes).map (prevIdx children), pv ≤ x) ∧
      firstUpdateColumn children muts = .fin (pv + 1).toNat ∧
      onTheadTrChildrenChanged st children muts =
        st.update 0 (.fin (pv + 1).toNat) .inf .inf ∧
      (∀ r c : Nat, Region.containsCell ⟨0, .fin (pv + 1).toNat, .inf, .inf⟩ r c =
        decide ((pv + 1).toNat ≤ c)) := by
  rcases h with ⟨m0, hm0, hel0⟩
  have hne : (muts.filter hasElemNodes).map (prevIdx children) ≠ [] := by
    intro hcon
    have : m0 ∈ muts.filter hasElemNodes := List.mem_filter.mpr ⟨hm0, hel0⟩
    have := List.mem_map_of_mem (prevIdx children) this
    rw [hcon] at this
    cases this
  rcases hcontribs : (muts.filter hasElemNodes).map (prevIdx children) with _ | ⟨i0, rest⟩
  · cases hne hcontribs
  · have hloop : findLoop children muts none = some (rest.foldl min i0) := by
      rw [findLoop_eq children muts none (Or.inl rfl), hcontribs, List.foldl_cons]
      exact foldMin_some rest (jsMin none i0)
    refine ⟨rest.foldl min i0, ?_, ?_, ?_, ?_, ?_, ?_⟩
    · have hall : ∀ x ∈ i0 :: rest, -1 ≤ x := by
        intro x hx
        have : x ∈ (muts.filter hasElemNodes).map (prevIdx children) := by
          rw [hcontribs]; exact hx
        rcases List.mem_map.mp this with ⟨m2, _, rfl⟩
        exact prevIdx_ge children m2
      rcases foldl_min_mem rest i0 with hm | hm
      · rw [hm]; exact hall i0 (List.mem_cons_self _ _)
      · exact hall _ (List.mem_cons_of_mem _ hm)
    · rcases foldl_min_mem rest i0 with hm | hm
      · rw [hm]; exact List.mem_cons_self _ _
      · exact List.mem_cons_of_mem _ hm
    · intro x hx
      rcases List.mem_cons.mp hx with rfl | hx2
      · exact foldl_min_le_init rest x
      · exact foldl_min_le_mem rest i0 x hx2
    · rw [firstUpdateColumn, hloop]
    · rw [onTheadTrChildrenChanged, firstUpdateColumn, hloop]
    · intro r c
      simp [Region.containsCell, NatInf.natLt, NatInf.leNat]

/-- Witness for the C7 theorem: removing the second of four header cells
(remaining children 0,2,3, previous sibling the cell 0) enqueues
update(0,1,inf,inf), whose rectangle excludes column 0 and includes
column 1. -/
theorem header_mutation_updates_from_column_witness :
    onTheadTrChildrenChanged initState [0, 2, 3]
        [⟨[], [⟨1, true⟩], some ⟨0, true⟩, none⟩] =
      initState.update 0 (.fin 1) .inf .inf ∧
    Region.containsCell ⟨0, .fin 1, .inf, .inf⟩ 5 0 = false ∧
    Region.containsCell ⟨0, .fin 1, .inf, .inf⟩ 5 1 = true := by
  obtain ⟨pv, hge, hmem, hmin, hcol, hupd, hrect⟩ :=
    header_mutation_updates_from_column initState [0, 2, 3]
      [⟨[], [⟨1, true⟩], some ⟨0, true⟩, none⟩]
      ⟨⟨[], [⟨1, true⟩], some ⟨0, true⟩, none⟩, by decide, by decide⟩
  have hl : (([⟨[], [⟨1, true⟩], some ⟨0, true⟩, none⟩] : List HeaderMutation).filter
      hasElemNodes).map (prevIdx [0, 2, 3]) = [0] := by decide
  rw [hl] at hmem
  have hpv : pv = 0 := by simpa using hmem
  subst hpv
  exact ⟨hupd, by decide, by decide⟩

/-! Claim theorems about cell type resolution and rendering. -/

/-- C9 counterexample: reading the type property of a body cell is not
total.  It throws a TypeError for a detached cell, for a table without a
header section, for a header section without a header row, and for a
header row with fewer cells than the column index, instead of returning
the default text. -/
theorem cell_type_read_throws :
    cellTypeAt ⟨none, 0⟩ = .error () ∧
    cellTypeAt ⟨some ⟨none⟩, 0⟩ = .error () ∧
    cellTypeAt ⟨some ⟨some ⟨none⟩⟩, 0⟩ = .error () ∧
    cellTypeAt ⟨some ⟨some ⟨some []⟩⟩, 0⟩ = .error () := by
  exact ⟨rfl, rfl, rfl, rfl⟩

/-- C9 (amended): reading the type property succeeds exactly when the
cell sits in a table with a header section, a header row, and a header
cell at the same column index; it then returns that header's type
attribute, defaulting to text when the header declares none.  When the
table, the header section, the header row or the header cell at the
index is missing, the read throws a TypeError instead of being total. -/
theorem cell_type_amended :
    (∀ (tr : List Header) (i : Nat) (h : Header), tr.get? i = some h →
        cellTypeAt ⟨some ⟨some ⟨some tr⟩⟩, i⟩ = .ok (h.htype.getD "text")) ∧
    (∀ i : Nat, cellTypeAt ⟨none, i⟩ = .error ()) ∧
    (∀ i : Nat, cellTypeAt ⟨some ⟨none⟩, i⟩ = .error ()) ∧
    (∀ i : Nat, cellTypeAt ⟨some ⟨some ⟨none⟩⟩, i⟩ = .error ()) ∧
    (∀ (tr : List Header) (i : Nat), tr.get? i = none →
        cellTypeAt ⟨some ⟨some ⟨some tr⟩⟩, i⟩ = .error ()) := by
  refine ⟨?_, fun i => rfl, fun i => rfl, fun i => rfl, ?_⟩
  · intro tr i h hget
    have hget2 : tr[i]? = some h := by rw [← List.get?_eq_getElem?]; exact hget
    simp [cellTypeAt, tableHeaderAt, hget2, Header.resolvedType]
  · intro tr i hget
    have hget2 : tr[i]? = none := by rw [← List.get?_eq_getElem?]; exact hget
    simp [cellTypeAt, tableHeaderAt, hget2]

/-- Witness for the amended C9 theorem: a header cell without a type
attribute resolves to text. -/
theorem cell_type_amended_witness :
    cellTypeAt ⟨some ⟨some ⟨some [⟨none, none, none⟩]⟩⟩, 0⟩ = .ok "text" :=
  cell_type_amended.1 [⟨none, none, none⟩] 0 ⟨none, none, none⟩ rfl

/-- C8: once the type of a body cell resolves, the deferred render never
throws: when no renderer is registered for the type, it falls back to
the raw value as plain text and emits the console warning; when a
renderer is registered, exactly that renderer is applied and no warning
is emitted. -/
theorem cell_render_dispatch (reg : Registries) (pos : CellPos) (td : CellView)
    (ty : String) (hty : cellTypeAt pos = .ok ty) :
    (reg.renderers ty = none →
        cellUpdate reg pos td = .ok ⟨.setText (td.value.getD ""), true⟩) ∧
    (∀ r, reg.renderers ty = some r →
        cellUpdate reg pos td = .ok ⟨r td, false⟩) := by
  constructor
  · intro hn
    simp [cellUpdate, hty, hn]
  · intro r hr
    simp [cellUpdate, hty, hr]

/-- Witness for the C8 theorem: the unregistered type custom renders the
raw value as text with a warning, and the registered text renderer is
applied for the type text. -/
theorem cell_render_dispatch_witness :
    cellUpdate builtinRegs ⟨some ⟨some ⟨some [⟨some "custom", none, none⟩]⟩⟩, 0⟩
        ⟨some "v", none, none⟩ = .ok ⟨.setText "v", true⟩ ∧
    cellUpdate builtinRegs ⟨some ⟨some ⟨some [⟨some "text", none, none⟩]⟩⟩, 0⟩
        ⟨some "w", none, none⟩ = .ok ⟨.setText "w", false⟩ :=
  ⟨(cell_render_dispatch builtinRegs ⟨some ⟨some ⟨some [⟨some "custom", none, none⟩]⟩⟩, 0⟩
      ⟨some "v", none, none⟩ "custom" rfl).1 rfl,
   (cell_render_dispatch builtinRegs ⟨some ⟨some ⟨some [⟨some "text", none, none⟩]⟩⟩, 0⟩
      ⟨some "w", none, none⟩ "text" rfl).2 textRenderer rfl⟩

/-- C10: the check renderer decides truthiness on the raw attribute
string, not on its numeric or boolean meaning: the rendered glyph is the
check mark exactly when the value attribute is a present non-empty
string -- so the literal strings 0 and false render a check mark -- and
the cross mark exactly when the attribute is absent or empty. -/
theorem check_renderer_truthiness :
    (∀ v m hm : Option String,
      (checkRenderer ⟨v, m, hm⟩ = .setText "🗸" ↔ ∃ s, v = some s ∧ s ≠ "") ∧
      (checkRenderer ⟨v, m, hm⟩ = .setText "🞩" ↔ v = none ∨ v = some "")) ∧
    checkRenderer ⟨some "0", none, none⟩ = .setText "🗸" ∧
    checkRenderer ⟨some "false", none, none⟩ = .setText "🗸" ∧
    checkRenderer ⟨none, none, none⟩ = .setText "🞩" ∧
    checkRenderer ⟨some "", none, none⟩ = .setText "🞩" := by
  refine ⟨?_, by decide, by decide, by decide, by decide⟩
  intro v m hm
  cases v with
  | none => constructor <;> simp [checkRenderer]
  | some s =>
    by_cases hs : s = ""
    · subst hs
      constructor <;> simp [checkRenderer]
    · constructor <;> simp [checkRenderer, hs]

/-! Fidelity of the kernel-computable rational operations. -/

theorem ratMul_eq_mul (a b : ℚ) : ratMul a b = a * b := by
  rw [ratMul, Rat.mkRat_eq_div]
  push_cast
  rw [← div_mul_div_comm, Rat.num_div_den, Rat.num_div_den]

theorem ratAdd_eq_add (a b : ℚ) : ratAdd a b = a + b := by
  have ha : (a.den : ℚ) ≠ 0 := by
    exact_mod_cast a.den_nz
  have hb : (b.den : ℚ) ≠ 0 := by
    exact_mod_cast b.den_nz
  rw [ratAdd, Rat.mkRat_eq_div]
  push_cast
  conv_rhs => rw [← Rat.num_div_den a, ← Rat.num_div_den b]
  rw [div_add_div _ _ ha hb]
  congr 1
  ring

theorem mkRat_signed_eq_div (n d : Int) :
    (if d < 0 then mkRat (-n) d.natAbs else mkRat n d.natAbs) = (n : ℚ) / (d : ℚ) := by
  by_cases hd : d < 0
  · rw [if_pos hd, Rat.mkRat_eq_div]
    have habs : ((d.natAbs : Nat) : ℚ) = -(d : ℚ) := by
      rw [Int.cast_natAbs]
      push_cast
      exact abs_of_neg (by exact_mod_cast hd)
    rw [habs]
    push_cast
    rw [neg_div_neg_eq]
  · rw [if_neg hd, Rat.mkRat_eq_div]
    have habs : ((d.natAbs : Nat) : ℚ) = (d : ℚ) := by
      rw [Int.cast_natAbs]
      push_cast
      exact abs_of_nonneg (by exact_mod_cast le_of_not_lt hd)
    rw [habs]

theorem ratDiv_eq_div (a b : ℚ) (hb : b ≠ 0) : ratDiv a b = a / b := by
  have hbn : (b.num : ℚ) ≠ 0 := by
    exact_mod_cast Rat.num_ne_zero.mpr hb
  have ha : (a.den : ℚ) ≠ 0 := by exact_mod_cast a.den_nz
  have hbd : (b.den : ℚ) ≠ 0 := by exact_mod_cast b.den_nz
  have hA : (a.num : ℚ) = a * a.den := (div_eq_iff ha).mp (Rat.num_div_den a)
  have hB : (b.num : ℚ) = b * b.den := (div_eq_iff hbd).mp (Rat.num_div_den b)
  rw [ratDiv, mkRat_signed_eq_div]
  push_cast
  rw [div_eq_div_iff (mul_ne_zero hbn ha) hb, hA, hB]
  ring

/-! Helper lemmas about row construction and export. -/

theorem buildArrCells_length (imp : String → Option (JSVal → String))
    (types : List String) :
    ∀ (vs : List JSVal) (i : Nat), (buildArrCells imp types i vs).length = vs.length := by
  intro vs
  induction vs with
  | nil => intro i; rfl
  | cons v rest ih => intro i; simp [buildArrCells, ih (i + 1)]

theorem buildArrCells_get (imp : String → Option (JSVal → String))
    (types : List String) :
    ∀ (vs : List JSVal) (i j : Nat),
      (buildArrCells imp types i vs).get? j =
        (vs.get? j).map (fun v => mkArrayCell imp (types.get? (i + j)) v) := by
  intro vs
  induction vs with
  | nil => intro i j; rfl
  | cons v rest ih =>
    intro i j
    cases j with
    | zero => simp [buildArrCells]
    | succ j2 =>
      rw [buildArrCells]
      have h1 : (mkArrayCell imp (types.get? i) v ::
          buildArrCells imp types (i + 1) rest).get? (j2 + 1) =
          (buildArrCells imp types (i + 1) rest).get? j2 := rfl
      rw [h1, ih (i + 1) j2]
      have h2 : i + 1 + j2 = i + (j2 + 1) := by omega
      rw [h2]
      rfl

theorem buildObjCells_length (imp : String → Option (JSVal → String))
    (types : List String) (fields : List (String × JSVal)) :
    ∀ (names : List (Option String)) (i : Nat),
      (buildObjCells imp types fields i names).length = names.length := by
  intro names
  induction names with
  | nil => intro i; rfl
  | cons k rest ih => intro i; simp [buildObjCells, ih (i + 1)]

theorem buildObjCells_get (imp : String → Option (JSVal → String))
    (types : List String) (fields : List (String × JSVal)) :
    ∀ (names : List (Option String)) (i j : Nat),
      (buildObjCells imp types fields i names).get? j =
        (names.get? j).map (fun k => mkObjCell imp (types.get? (i + j)) k fields) := by
  intro names
  induction names with
  | nil => intro i j; rfl
  | cons k rest ih =>
    intro i j
    cases j with
    | zero => simp [buildObjCells]
    | succ j2 =>
      rw [buildObjCells]
      have h1 : (mkObjCell imp (types.get? i) k fields ::
          buildObjCells imp types fields (i + 1) rest).get? (j2 + 1) =
          (buildObjCells imp types fields (i + 1) rest).get? j2 := rfl
      rw [h1, ih (i + 1) j2]
      have h2 : i + 1 + j2 = i + (j2 + 1) := by omega
      rw [h2]
      rfl

theorem columnTypes_get (hs : List Header) (i : Nat) :
    (columnTypes hs).get? i = (hs.get? i).map Header.resolvedType := by
  rw [columnTypes, List.get?_map]

theorem columnNames_get (hs : List Header) (i : Nat) :
    (columnNames hs).get? i = (hs.get? i).map (·.hname) := by
  rw [columnNames, List.get?_map]

theorem objGet_absent {fields : List (String × JSVal)} {k : String}
    (h : fields.find? (fun p => p.1 = k) = none) : objGet fields k = .vundefined := by
  rw [objGet, h]

theorem resolveType_ok {hs : List Header} {i : Nat} {h : Header}
    (hget : hs.get? i = some h) : resolveType hs i = .ok h.resolvedType := by
  have hget2 : hs[i]? = some h := by rw [← List.get?_eq_getElem?]; exact hget
  simp [resolveType, cellTypeAt, tableHeaderAt, hget2]

/-- C6: from clears the previous body content and builds one fresh row
per input row.  For an array row, position i maps to column i: the cell
value is the importer of column i applied to the entry when one is
registered, else the raw entry with nullish values defaulting to the
empty string (then stringified).  For an object row one cell per column
is built: a column without a name attribute gets no value; a named
column reads the property of that name, absent keys giving undefined,
so a registered importer supplies its default and otherwise the raw
empty value is stored. -/
theorem from_builds_rows (reg : Registries) :
    (∀ (hs : List Header) (b1 b2 : List (List Cell)) (D : List JSRow),
        renFrom reg ⟨hs, b1⟩ D = renFrom reg ⟨hs, b2⟩ D) ∧
    (∀ (tbl : RenTable) (D : List JSRow), (renFrom reg tbl D).body.length = D.length) ∧
    (∀ (tbl : RenTable) (D : List JSRow) (k : Nat) (row : JSRow),
        D.get? k = some row →
        (renFrom reg tbl D).body.get? k =
          some (buildRowCells reg.importerOf tbl.headers row)) ∧
    (∀ (hs : List Header) (vs : List JSVal),
        (buildRowCells reg.importerOf hs (.arr vs)).length = vs.length) ∧
    (∀ (hs : List Header) (vs : List JSVal) (i : Nat) (v : JSVal) (ty : String)
        (f : JSVal → String), vs.get? i = some v →
        (columnTypes hs).get? i = some ty → reg.importerOf ty = some f →
        (buildRowCells reg.importerOf hs (.arr vs)).get? i = some ⟨some (f v), none⟩) ∧
    (∀ (hs : List Header) (vs : List JSVal) (i : Nat) (v : JSVal),
        vs.get? i = some v →
        ((columnTypes hs).get? i).bind reg.importerOf = none →
        (buildRowCells reg.importerOf hs (.arr vs)).get? i =
          some ⟨some ((v.orElse (.vstr "")).toJSString), none⟩) ∧
    ((JSVal.vundefined.orElse (.vstr "")).toJSString = "" ∧
      (JSVal.vnull.orElse (.vstr "")).toJSString = "") ∧
    (∀ (hs : List Header) (fields : List (String × JSVal)),
        (buildRowCells reg.importerOf hs (.obj fields)).length = hs.length) ∧
    (∀ (hs : List Header) (fields : List (String × JSVal)) (i : Nat) (h : Header),
        hs.get? i = some h → h.hname = none →
        (buildRowCells reg.importerOf hs (.obj fields)).get? i = some ⟨none, none⟩) ∧
    (∀ (hs : List Header) (fields : List (String × JSVal)) (i : Nat) (h : Header)
        (k : String), hs.get? i = some h → h.hname = some k →
        fields.find? (fun p => p.1 = k) = none →
        (buildRowCells reg.importerOf hs (.obj fields)).get? i =
          some ⟨some (match reg.importerOf h.resolvedType with
                      | some f => f .vundefined
                      | none => ""), none⟩) ∧
    (∀ (hs : List Header) (fields : List (String × JSVal)) (i : Nat) (h : Header)
        (k : String) (v : JSVal), hs.get? i = some h → h.hname = some k →
        objGet fields k = v →
        (buildRowCells reg.importerOf hs (.obj fields)).get? i =
          some ⟨some (match reg.importerOf h.resolvedType with
                      | some f => f v
                      | none => (v.orElse (.vstr "")).toJSString), none⟩) := by
  refine ⟨?_, ?_, ?_, ?_, ?_, ?_, ⟨rfl, rfl⟩, ?_, ?_, ?_, ?_⟩
  · intro hs b1 b2 D; rfl
  · intro tbl D; simp [renFrom, renClear]
  · intro tbl D k row hget
    simp only [renFrom, renClear, List.get?_map, hget, Option.map_some']
  · intro hs vs
    exact buildArrCells_length reg.importerOf (columnTypes hs) vs 0
  · intro hs vs i v ty f hv hty hf
    rw [buildRowCells, buildArrCells_get reg.importerOf (columnTypes hs) vs 0 i, hv,
      Nat.zero_add, hty]
    simp [mkArrayCell, hf]
  · intro hs vs i v hv hbind
    rw [buildRowCells, buildArrCells_get reg.importerOf (columnTypes hs) vs 0 i, hv,
      Nat.zero_add]
    simp only [Option.map_some']
    rw [mkArrayCell]
    cases hty : (columnTypes hs).get? i with
    | none => rfl
    | some ty =>
      rw [hty] at hbind
      simp only [Option.some_bind] at hbind
      simp [mkArrayCell, hbind]
  · intro hs fields
    rw [buildRowCells]
    rw [buildObjCells_length reg.importerOf (columnTypes hs) fields (columnNames hs) 0]
    simp [columnNames]
  · intro hs fields i h hget hname
    rw [buildRowCells,
      buildObjCells_get reg.importerOf (columnTypes hs) fields (columnNames hs) 0 i,
      columnNames_get, hget, Nat.zero_add]
    simp [mkObjCell, hname]
  · intro hs fields i h k hget hname hfind
    rw [buildRowCells,
      buildObjCells_get reg.importerOf (columnTypes hs) fields (columnNames hs) 0 i,
      columnNames_get, hget, Nat.zero_add, columnTypes_get, hget]
    simp only [Option.map_some']
    simp only [hname]
    have hv : objGet fields k = .vundefined := objGet_absent hfind
    cases himp : reg.importerOf h.resolvedType with
    | none => simp [mkObjCell, himp, hv, JSVal.orElse, JSVal.toJSString]
    | some f => simp [mkObjCell, himp, hv]
  · intro hs fields i h k v hget hname hv
    rw [buildRowCells,
      buildObjCells_get reg.importerOf (columnTypes hs) fields (columnNames hs) 0 i,
      columnNames_get, hget, Nat.zero_add, columnTypes_get, hget]
    simp only [Option.map_some']
    simp only [hname]
    cases himp : reg.importerOf h.resolvedType with
    | none => simp [mkObjCell, himp, hv]
    | some f => simp [mkObjCell, himp, hv]

/-- Witness for the C6 theorem: a check column imports the number 0 as
the empty string (importer applied to the entry), and an unnamed column
of an object row is left with no value. -/
theorem from_builds_rows_witness :
    (buildRowCells builtinImporters [⟨some "check", some "done", none⟩]
        (.arr [.vnum 0])).get? 0 = some ⟨some "", none⟩ ∧
    (buildRowCells builtinImporters [⟨none, some "title", none⟩, ⟨none, none, none⟩]
        (.obj [("title", .vstr "x")])).get? 1 = some ⟨none, none⟩ := by
  constructor
  · exact (from_builds_rows builtinRegs).2.2.2.2.1 [⟨some "check", some "done", none⟩]
      [.vnum 0] 0 (.vnum 0) "check" checkImporter rfl rfl rfl
  · exact (from_builds_rows builtinRegs).2.2.2.2.2.2.2.2.1
      [⟨none, some "title", none⟩, ⟨none, none, none⟩] [("title", .vstr "x")] 1
      ⟨none, none, none⟩ rfl rfl

theorem export_cell_ok {reg : Registries} {hs : List Header} {i : Nat} {h : Header}
    (hget : hs.get? i = some h) (val cm : Option String) :
    exportCell reg hs i ⟨val, cm⟩ = .ok
      (match reg.exporters h.resolvedType with
       | some ex => ex ⟨val, cm, h.hmax⟩
       | none => .ostr val) := by
  have hrt := resolveType_ok hget
  have hget2 : hs[i]? = some h := by rw [← List.get?_eq_getElem?]; exact hget
  simp only [exportCell, hrt]
  cases hex : reg.exporters h.resolvedType with
  | none => simp [hex]
  | some ex => simp [hex, cellViewAt, hget2]

theorem export_arr_row (reg : Registries) (hs : List Header) :
    ∀ (vs : List JSVal) (i : Nat), i + vs.length ≤ hs.length →
      exportRowCells reg hs i (buildArrCells reg.importerOf (columnTypes hs) i vs) =
        .ok (arrRoundSpec reg hs i vs) := by
  intro vs
  induction vs with
  | nil => intro i hlen; rfl
  | cons v rest ih =>
    intro i hlen
    have hi : i < hs.length := by
      simp only [List.length_cons] at hlen
      omega
    obtain ⟨h, hget⟩ : ∃ h2, hs.get? i = some h2 := by
      cases hh : hs.get? i with
      | none => exact absurd (List.get?_eq_none.mp hh) (by omega)
      | some h2 => exact ⟨h2, rfl⟩
    have hlen2 : (i + 1) + rest.length ≤ hs.length := by
      simp only [List.length_cons] at hlen
      omega
    have hty : (columnTypes hs).get? i = some h.resolvedType := by
      rw [columnTypes_get, hget]; rfl
    have hcell : mkArrayCell reg.importerOf ((columnTypes hs).get? i) v =
        ⟨some (storedArrVal reg h v), none⟩ := by
      rw [hty]
      cases himp : reg.importerOf h.resolvedType with
      | none => simp [mkArrayCell, storedArrVal, himp]
      | some f => simp [mkArrayCell, storedArrVal, himp]
    rw [buildArrCells, hcell]
    simp only [exportRowCells, export_cell_ok hget, ih (i + 1) hlen2, arrRoundSpec,
      hget, exportSpec]

theorem export_obj_row (reg : Registries) (hs : List Header)
    (fields : List (String × JSVal)) :
    ∀ (tail2 : List Header) (i : Nat), hs.drop i = tail2 →
      exportRowCells reg hs i
        (buildObjCells reg.importerOf (columnTypes hs) fields i (tail2.map (·.hname))) =
        .ok (tail2.map (fun h => exportSpec reg h (storedObjVal reg h fields))) := by
  intro tail2
  induction tail2 with
  | nil => intro i hdrop; rfl
  | cons h t ih =>
    intro i hdrop
    have hget : hs.get? i = some h := by
      have h1 : (hs.drop i).get? 0 = some h := by rw [hdrop]; rfl
      rw [List.get?_drop] at h1
      simpa using h1
    have hdrop2 : hs.drop (i + 1) = t := by
      have h2 : (hs.drop i).tail = hs.drop (i + 1) := List.tail_drop hs i
      rw [hdrop] at h2
      simpa using h2.symm
    have hty : (columnTypes hs).get? i = some h.resolvedType := by
      rw [columnTypes_get, hget]; rfl
    have hcell : mkObjCell reg.importerOf ((columnTypes hs).get? i) h.hname fields =
        ⟨storedObjVal reg h fields, none⟩ := by
      rw [hty]
      cases hname : h.hname with
      | none => simp [mkObjCell, storedObjVal, hname]
      | some k =>
        cases himp : reg.importerOf h.resolvedType with
        | none => simp [mkObjCell, storedObjVal, hname, himp]
        | some f => simp [mkObjCell, storedObjVal, hname, himp]
    rw [List.map_cons, buildObjCells, hcell]
    simp only [exportRowCells, export_cell_ok hget, ih (i + 1) hdrop2, List.map_cons,
      exportSpec]

theorem toArray_from_rows (reg : Registries) (hs : List Header) :
    ∀ (D : List JSRow), (∀ row ∈ D, rowFits hs row) →
      toArrayRows reg hs (D.map (buildRowCells reg.importerOf hs)) =
        .ok (D.map (roundSpec reg hs)) := by
  intro D
  induction D with
  | nil => intro _; rfl
  | cons row D2 ih =>
    intro hfit
    have hrow : exportRowCells reg hs 0 (buildRowCells reg.importerOf hs row) =
        .ok (roundSpec reg hs row) := by
      cases row with
      | arr vs =>
        have hlen : 0 + vs.length ≤ hs.length := by
          have := hfit _ (List.mem_cons_self _ _)
          simpa [rowFits] using this
        exact export_arr_row reg hs vs 0 hlen
      | obj fields =>
        have h0 : hs.drop 0 = hs := by simp
        have hmain := export_obj_row reg hs fields hs 0 h0
        simpa [buildRowCells, roundSpec, columnNames] using hmain
    simp only [List.map_cons, toArrayRows, hrow,
      ih (fun r hr => hfit r (List.mem_cons_of_mem _ hr))]

/-! Claim theorems about the import and export round trip. -/

/-- C5 counterexample: an array row longer than the header row is
importable by from, but the immediate to_array then throws a TypeError
instead of yielding values, because the type of the extra cell is read
through a header cell that does not exist. -/
theorem round_trip_throws_on_wide_row :
    renToArray builtinRegs (renFrom builtinRegs ⟨[⟨some "text", none, none⟩], []⟩
      [.arr [.vstr "a", .vstr "b"]]) = .error () := by decide

/-- C5 (amended): for any dataset importable via from in which every
array row has at most as many entries as there are header columns,
to_array applied immediately afterwards yields exactly, per column, the
registered exporter applied to the imported stored value of the
corresponding dataset entry, and the raw imported string (null for
columns an object row left unset) for columns without a registered
exporter. -/
theorem round_trip_amended (reg : Registries) (tbl : RenTable) (D : List JSRow)
    (hfit : ∀ row ∈ D, rowFits tbl.headers row) :
    renToArray reg (renFrom reg tbl D) = .ok (D.map (roundSpec reg tbl.headers)) := by
  have h1 : renToArray reg (renFrom reg tbl D) =
      toArrayRows reg tbl.headers (D.map (buildRowCells reg.importerOf tbl.headers)) := rfl
  rw [h1]
  exact toArray_from_rows reg tbl.headers D hfit

/-- Witness for the amended C5 theorem: headers text, progress, check;
importing the row with entries hi, 30 and false and exporting again
yields the raw string hi, the number 30 / 100 = 3 / 10, and the boolean
false. -/
theorem round_trip_amended_witness :
    renToArray builtinRegs (renFrom builtinRegs
      ⟨[⟨some "text", some "title", none⟩, ⟨some "progress", some "completed", none⟩,
        ⟨some "check", some "done", none⟩], []⟩
      [.arr [.vstr "hi", .vnum 30, .vbool false]]) =
    .ok [[.ostr (some "hi"), .onum (.num (mkRat 3 10)), .obool false]] := by
  have h := round_trip_amended builtinRegs
    ⟨[⟨some "text", some "title", none⟩, ⟨some "progress", some "completed", none⟩,
      ⟨some "check", some "done", none⟩], []⟩
    [.arr [.vstr "hi", .vnum 30, .vbool false]] (by decide)
  rw [h]
  decide
